import Mathlib

/-!
Shallow embedding of `src/brassband.py` (module `brassband`): a Monte-Carlo
simulator estimating promotion / retention / relegation probabilities for
brass bands in a graded section.  The scores the Python code carries as
machine floats are modelled as integers: every value the program stores is a
sum of table scores and integer positions, and no property below depends on
fractional values.  Python `IndexError` / `ValueError` propagation is
modelled with `Option` / `Except`.  Randomness (`random.randrange`) is passed
in explicitly: each trial receives the list of values that the successive
`randrange(len(placings))` calls return.
-/

namespace Brassband

/-- Outcome categories for the target band in one simulated trial. -/
inductive Outcome : Type
  | promoted
  | stay
  | relegated
deriving DecidableEq

/-- A csv cell as the loader sees it: the raw text together with the result of
Python `float` parsing (`none` when `float(text)` would raise `ValueError`). -/
structure Cell : Type where
  text : String
  num : Option ℤ
deriving DecidableEq

/-- One iteration of the `read_csv` loop (lines 39-46): `names.append(cells[0])`
always runs (a split line has at least one cell); `float(cells[1])` and
`float(cells[2])` run next, where a missing cell raises `IndexError` (caught:
the rest of the row is skipped) and a non-numeric cell raises `ValueError`
(uncaught: the whole load aborts, modelled as `Except.error`). -/
def readRow (st : List String × List ℤ × List ℤ) (row : List Cell) :
    Except Unit (List String × List ℤ × List ℤ) :=
  let names := st.1 ++ [(row.headD ⟨"", none⟩).text]
  match row.get? 1 with
  | none => .ok (names, st.2.1, st.2.2)
  | some c1 =>
    match c1.num with
    | none => .error ()
    | some v1 =>
      let twoY := st.2.1 ++ [v1]
      match row.get? 2 with
      | none => .ok (names, twoY, st.2.2)
      | some c2 =>
        match c2.num with
        | none => .error ()
        | some v2 => .ok (names, twoY, st.2.2 ++ [v2])

/-- Model of `read_csv` (lines 13-47): fold `readRow` over the file's rows,
starting from three empty lists, returning `(names, twoYearsAgo, lastYear)`. -/
def read_csv (rows : List (List Cell)) : Except Unit (List String × List ℤ × List ℤ) :=
  rows.foldlM readRow ([], [], [])

/-- Model of repeated `placings.pop(randrange(len(placings)))` (lines 112/159):
each choice `c` pops the element at index `c` from the current list.  The
default `0` of `getD` is only reachable for an out-of-range choice, which a
real `randrange(len(placings))` never returns. -/
def popDrawAll : List ℕ → List ℕ → List ℕ
  | _, [] => []
  | l, c :: cs => l.getD c 0 :: popDrawAll (l.eraseIdx c) cs

/-- A choice list is valid for an initial pool of size `n` when it has length
`n` and each successive choice is in range for the shrinking pool, exactly the
values `randrange(len(placings))` can produce. -/
def validChoices : List ℕ → ℕ → Bool
  | [], n => n == 0
  | c :: cs, n => decide (c < n) && validChoices cs (n - 1)

/-- Model of the result-generation loop (lines 107-112 and 154-159): walk the
`absent` flags band by band; an absent band gets the fixed value `worst`
(`nPlayed + 1` at the call sites), a present band pops the next random choice
from the remaining `placings`. -/
def genResult (worst : ℕ) : List Bool → List ℕ → List ℕ → List ℕ
  | [], _, _ => []
  | true :: rest, placings, cs => worst :: genResult worst rest placings cs
  | false :: rest, placings, [] =>
      placings.getD 0 0 :: genResult worst rest (placings.eraseIdx 0) []
  | false :: rest, placings, c :: cs =>
      placings.getD c 0 :: genResult worst rest (placings.eraseIdx c) cs

/-- The subsequence of a result vector at the indices of present bands. -/
def presentPositions : List Bool → List ℕ → List ℕ
  | [], _ => []
  | _, [] => []
  | true :: rest, _ :: rs => presentPositions rest rs
  | false :: rest, r :: rs => r :: presentPositions rest rs

/-- Number of present bands recorded in the absence flags. -/
def countFalse (absent : List Bool) : ℕ :=
  absent.countP fun a => !a

/-- Model of `final = start + result` (lines 114/163): elementwise sum of the
prior-score vector and the drawn position vector. -/
def finalScores (start : List ℤ) (result : List ℕ) : List ℤ :=
  List.zipWith (fun (s : ℤ) (r : ℕ) => s + (r : ℤ)) start result

/-- Model of `final.sort()` (lines 118/167): ascending sort of the final
scores (applied after the target's own total has been read off). -/
def sortScores (final : List ℤ) : List ℤ :=
  final.insertionSort (· ≤ ·)

/-- Model of the classification (lines 120-125 and 169-174): `promoted` when
`iTotal < final[nPromoted]`, else `stay` when `iTotal < final[nBands -
nRelegated]`, else `relegated`.  Each index access can raise `IndexError`
(`none`); like Python, the second access is only evaluated when the first
test fails. -/
def classify (nBands nPromoted nRelegated : ℕ) (sorted : List ℤ) (iTotal : ℤ) :
    Option Outcome :=
  match sorted.get? nPromoted with
  | none => none
  | some pc =>
    if iTotal < pc then some .promoted
    else
      match sorted.get? (nBands - nRelegated) with
      | none => none
      | some rc => if iTotal < rc then some .stay else some .relegated

/-- The position vector one trial draws: placings start as `[1, ..., nPlayed]`
(line 107/154) and absent bands receive `nPlayed + 1`. -/
def trialResult (absent : List Bool) (nPlayed : ℕ) (cs : List ℕ) : List ℕ :=
  genResult (nPlayed + 1) absent (List.range' 1 nPlayed) cs

/-- One trial's classification of band `i` (both loops, lines 113-125 and
160-174): build the final scores, read `iTotal = final[i]` before the sort,
sort, classify. -/
def trialOutcome (start : List ℤ) (absent : List Bool)
    (nPlayed nPromoted nRelegated i : ℕ) (cs : List ℕ) : Option Outcome :=
  let result := trialResult absent nPlayed cs
  let final := finalScores start result
  match final.get? i with
  | none => none
  | some iTotal => classify start.length nPromoted nRelegated (sortScores final) iTotal

/-- One present-mode trial (lines 153-174): additionally computes the bucket
index `iResult = result[i] - 1` and checks it against the bucket-array length
`nPlayed` (a numpy increment at an out-of-range index raises `IndexError`). -/
def trialP (start : List ℤ) (absent : List Bool)
    (nPlayed nPromoted nRelegated i : ℕ) (cs : List ℕ) : Option (ℕ × Outcome) :=
  match (trialResult absent nPlayed cs).get? i with
  | none => none
  | some iRes =>
    match trialOutcome start absent nPlayed nPromoted nRelegated i cs with
    | none => none
    | some o => if iRes - 1 < nPlayed then some (iRes - 1, o) else none

/-- Per-bucket counters of the present-band mode (lines 147-149). -/
structure Tally : Type where
  promoted : List ℕ
  stay : List ℕ
  relegated : List ℕ
deriving DecidableEq

/-- Fresh zero counters, one slot per finishing position (lines 147-149). -/
def Tally.init (n : ℕ) : Tally :=
  ⟨List.replicate n 0, List.replicate n 0, List.replicate n 0⟩

/-- Model of `xs[b] += 1` on a counter array. -/
def bump (l : List ℕ) (b : ℕ) : List ℕ :=
  l.set b (l.getD b 0 + 1)

/-- Model of the three-way increment (lines 169-174). -/
def Tally.update (t : Tally) (b : ℕ) : Outcome → Tally
  | .promoted => ⟨bump t.promoted b, t.stay, t.relegated⟩
  | .stay => ⟨t.promoted, bump t.stay b, t.relegated⟩
  | .relegated => ⟨t.promoted, t.stay, bump t.relegated b⟩

/-- Model of the scalar increment of the absent-band mode (lines 120-125). -/
def bump3 (c : ℕ × ℕ × ℕ) : Outcome → ℕ × ℕ × ℕ
  | .promoted => (c.1 + 1, c.2.1, c.2.2)
  | .stay => (c.1, c.2.1 + 1, c.2.2)
  | .relegated => (c.1, c.2.1, c.2.2 + 1)

/-- The present-mode trial batch (the `for j in range(nSamples)` loop, line
152): each trial either fails (propagated) or lands in exactly one bucket
with exactly one outcome. -/
def runPresent (start : List ℤ) (absent : List Bool)
    (nPlayed nPromoted nRelegated i : ℕ) : List (List ℕ) → Tally → Option Tally
  | [], t => some t
  | cs :: css, t =>
    match trialP start absent nPlayed nPromoted nRelegated i cs with
    | none => none
    | some bo => runPresent start absent nPlayed nPromoted nRelegated i css (t.update bo.1 bo.2)

/-- The absent-mode trial batch (the `for j in range(nSamplesPerBand)` loop,
line 105). -/
def runAbsent (start : List ℤ) (absent : List Bool)
    (nPlayed nPromoted nRelegated i : ℕ) : List (List ℕ) → ℕ × ℕ × ℕ → Option (ℕ × ℕ × ℕ)
  | [], c => some c
  | cs :: css, c =>
    match trialOutcome start absent nPlayed nPromoted nRelegated i cs with
    | none => none
    | some o => runAbsent start absent nPlayed nPromoted nRelegated i css (bump3 c o)

/-- Model of `100*count/total` (lines 131-133 and 180-182): numpy float
division yields NaN on a zero denominator (`0/0`), modelled as `none`. -/
def pct (c total : ℕ) : Option ℤ :=
  if total = 0 then none else some (100 * (c : ℤ) / (total : ℤ))

/-- Trials that landed the target in bucket `b` (line 178's `totals[b]`). -/
def bucketTotal (t : Tally) (b : ℕ) : ℕ :=
  t.promoted.getD b 0 + t.stay.getD b 0 + t.relegated.getD b 0

/-- The printed present-mode table (lines 176-191): one row per finishing
position `1..nPlayed` with the three percentages. -/
def reportPresent (nPlayed : ℕ) (t : Tally) :
    List (ℕ × (Option ℤ × Option ℤ × Option ℤ)) :=
  (List.range nPlayed).map fun b =>
    (b + 1, (pct (t.promoted.getD b 0) (bucketTotal t b),
      pct (t.stay.getD b 0) (bucketTotal t b),
      pct (t.relegated.getD b 0) (bucketTotal t b)))

/-- The printed absent-mode table (lines 127-143): a single synthetic row
labelled with the forced worst position `nPlayed + 1`. -/
def reportAbsent (nPlayed : ℕ) (c : ℕ × ℕ × ℕ) :
    List (ℕ × (Option ℤ × Option ℤ × Option ℤ)) :=
  [(nPlayed + 1, (pct c.1 (c.1 + c.2.1 + c.2.2), pct c.2.1 (c.1 + c.2.1 + c.2.2),
    pct c.2.2 (c.1 + c.2.1 + c.2.2)))]

/-- Model of the absence array construction (lines 91-94). -/
def mkAbsent (names : List String) (absentBands : List String) : List Bool :=
  names.map fun nm => decide (nm ∈ absentBands)

/-- Aggregate produced for one band: per-bucket tallies in present mode, a
single counter triple in absent mode. -/
def analyseBand (start : List ℤ) (absent : List Bool)
    (nPlayed nPromoted nRelegated nSamplesPerBand i : ℕ) (rnd : ℕ → List ℕ) :
    Option (Tally ⊕ (ℕ × ℕ × ℕ)) :=
  if absent.getD i false then
    (runAbsent start absent nPlayed nPromoted nRelegated i
      ((List.range nSamplesPerBand).map rnd) (0, 0, 0)).map Sum.inr
  else
    (runPresent start absent nPlayed nPromoted nRelegated i
      ((List.range (nSamplesPerBand * start.length)).map rnd) (Tally.init nPlayed)).map Sum.inl

/-- Model of `analyse` (lines 50-192) after the csv has been read: derives
`nBands = len(lastYear)`, `nPlayed = nBands - len(absentBands)`,
`start = twoYearsAgo + lastYear` and the absence flags, then simulates every
band in turn.  Note the source performs no configuration validation of any
kind before the loop.  `rnd i j` supplies trial `j`'s random choices for band
`i`'s batch. -/
def analyse (names : List String) (twoY lastY : List ℤ)
    (nPromoted nRelegated nSamplesPerBand : ℕ) (absentBands : List String)
    (rnd : ℕ → ℕ → List ℕ) : Option (List (Tally ⊕ (ℕ × ℕ × ℕ))) :=
  let nBands := lastY.length
  let nPlayed := nBands - absentBands.length
  let start := List.zipWith (fun a b => a + b) twoY lastY
  let absent := mkAbsent names absentBands
  (List.range nBands).mapM fun i =>
    analyseBand start absent nPlayed nPromoted nRelegated nSamplesPerBand i (rnd i)

/-- Total number of recorded trials in a tally. -/
def Tally.total (t : Tally) : ℕ :=
  t.promoted.sum + t.stay.sum + t.relegated.sum

/-- Total number of recorded trials in either aggregate. -/
def aggTotal : Tally ⊕ (ℕ × ℕ × ℕ) → ℕ
  | .inl t => t.total
  | .inr c => c.1 + c.2.1 + c.2.2

/-- The report rows produced for either aggregate. -/
def reportOf (nPlayed : ℕ) : Tally ⊕ (ℕ × ℕ × ℕ) →
    List (ℕ × (Option ℤ × Option ℤ × Option ℤ))
  | .inl t => reportPresent nPlayed t
  | .inr c => reportAbsent nPlayed c

/-- The bucket labels of a report. -/
def bucketLabels (nPlayed : ℕ) (r : Tally ⊕ (ℕ × ℕ × ℕ)) : List ℕ :=
  (reportOf nPlayed r).map Prod.fst

/-- Number of trials of a batch that land the target band in bucket `b`. -/
def landedInBucket (start : List ℤ) (absent : List Bool)
    (nPlayed nPromoted nRelegated i : ℕ) (css : List (List ℕ)) (b : ℕ) : ℕ :=
  css.countP fun cs =>
    (trialP start absent nPlayed nPromoted nRelegated i cs).map Prod.fst == some b

/-- All choice lists `randrange` can produce for an initial pool of `n`
placings: first choice below `n`, then any valid continuation for `n - 1`. -/
def allValidChoices : ℕ → List (List ℕ)
  | 0 => [[]]
  | n + 1 => (List.range (n + 1)).flatMap fun c => (allValidChoices n).map fun cs => c :: cs

/-- Number of valid random draws whose present-band positions come out as the
list `p`; with each `randrange` uniform, the probability of `p` is this count
divided by the (fixed) number of valid draws. -/
def drawsYielding (absent : List Bool) (nPlayed : ℕ) (p : List ℕ) : ℕ :=
  ((allValidChoices nPlayed).filter fun cs =>
    presentPositions absent (trialResult absent nPlayed cs) = p).length

/-- Mutable-state view for the frame claims: the loaded names, the prior-score
vector `start`, and the current tally.  A trial builds its `final` vector
fresh from `start` and sorts only that local vector, so the step function
carries `names` and `start` through unchanged. -/
structure SimState : Type where
  names : List String
  start : List ℤ
  tally : Tally
deriving DecidableEq

/-- One present-mode trial acting on the simulation state. -/
def trialStep (absent : List Bool) (nPlayed nPromoted nRelegated i : ℕ)
    (st : SimState) (cs : List ℕ) : Option SimState :=
  match trialP st.start absent nPlayed nPromoted nRelegated i cs with
  | none => none
  | some bo => some ⟨st.names, st.start, st.tally.update bo.1 bo.2⟩

/-- A band's whole trial batch acting on the simulation state. -/
def runBatch (absent : List Bool) (nPlayed nPromoted nRelegated i : ℕ) :
    List (List ℕ) → SimState → Option SimState
  | [], st => some st
  | cs :: css, st =>
    match trialStep absent nPlayed nPromoted nRelegated i st cs with
    | none => none
    | some st2 => runBatch absent nPlayed nPromoted nRelegated i css st2

/-- The driver's outer loop over target bands (line 97), acting on the
simulation state: every band's batch reads the same `names` and `start`. -/
def runAllBands (absent : List Bool) (nPlayed nPromoted nRelegated nSamples : ℕ)
    (rnd : ℕ → ℕ → List ℕ) : List ℕ → SimState → Option SimState
  | [], st => some st
  | i :: is, st =>
    match runBatch absent nPlayed nPromoted nRelegated i
        ((List.range nSamples).map (rnd i)) st with
    | none => none
    | some st2 => runAllBands absent nPlayed nPromoted nRelegated nSamples rnd is st2

/-! Generator lemmas: the pop-based draw is a fair permutation. -/

theorem get?_eq_some_getD {α : Type} (l : List α) (d : α) (i : ℕ) (h : i < l.length) :
    l.get? i = some (l.getD i d) := by
  rw [List.get?_eq_getElem?, List.getElem?_eq_getElem h, List.getD_eq_getElem l d h]

theorem validChoices_length : ∀ (cs : List ℕ) (n : ℕ), validChoices cs n = true →
    cs.length = n := by
  intro cs
  induction cs with
  | nil =>
    intro n h
    simp only [validChoices, beq_iff_eq] at h
    simp [h]
  | cons c cs ih =>
    intro n h
    simp only [validChoices, Bool.and_eq_true, decide_eq_true_eq] at h
    have hlen := ih (n - 1) h.2
    have : 0 < n := Nat.lt_of_le_of_lt (Nat.zero_le c) h.1
    simp only [List.length_cons, hlen]
    omega

theorem perm_getD_cons_eraseIdx :
    ∀ (l : List ℕ) (c : ℕ), c < l.length → List.Perm l (l.getD c 0 :: l.eraseIdx c) := by
  intro l
  induction l with
  | nil => intro c h; simp at h
  | cons x xs ih =>
    intro c h
    cases c with
    | zero => simp [List.getD]
    | succ c =>
      have hc : c < xs.length := by simpa using h
      have h1 : List.Perm (x :: xs) (x :: (xs.getD c 0 :: xs.eraseIdx c)) :=
        List.Perm.cons x (ih c hc)
      simpa [List.getD_cons_succ, List.eraseIdx_cons_succ] using
        h1.trans (List.Perm.swap (xs.getD c 0) x (xs.eraseIdx c))

theorem length_eraseIdx_of_lt (l : List ℕ) (c : ℕ) (h : c < l.length) :
    (l.eraseIdx c).length = l.length - 1 := by
  rw [List.length_eraseIdx]
  simp [h]

theorem popDrawAll_perm : ∀ (cs : List ℕ) (l : List ℕ), validChoices cs l.length = true →
    List.Perm (popDrawAll l cs) l := by
  intro cs
  induction cs with
  | nil =>
    intro l h
    simp only [validChoices, beq_iff_eq] at h
    have : l = [] := List.eq_nil_of_length_eq_zero h
    subst this
    simp [popDrawAll]
  | cons c cs ih =>
    intro l h
    simp only [validChoices, Bool.and_eq_true, decide_eq_true_eq] at h
    have hlen : (l.eraseIdx c).length = l.length - 1 := length_eraseIdx_of_lt l c h.1
    have h2 := ih (l.eraseIdx c) (by rw [hlen]; exact h.2)
    exact (List.Perm.cons (l.getD c 0) h2).trans (perm_getD_cons_eraseIdx l c h.1).symm

theorem getD_inj_of_nodup (l : List ℕ) (c c' : ℕ) (hnd : l.Nodup) (hc : c < l.length)
    (hc' : c' < l.length) (h : l.getD c 0 = l.getD c' 0) : c = c' := by
  rw [List.getD_eq_getElem l 0 hc, List.getD_eq_getElem l 0 hc'] at h
  have hinj := List.nodup_iff_injective_get.mp hnd
  have := hinj (show l.get ⟨c, hc⟩ = l.get ⟨c', hc'⟩ by simpa using h)
  simpa using this

theorem popDrawAll_inj : ∀ (cs cs' : List ℕ) (l : List ℕ), l.Nodup →
    validChoices cs l.length = true → validChoices cs' l.length = true →
    popDrawAll l cs = popDrawAll l cs' → cs = cs' := by
  intro cs
  induction cs with
  | nil =>
    intro cs' l _ hv hv' _
    have h0 := validChoices_length [] l.length hv
    have h1 := validChoices_length cs' l.length hv'
    cases cs' with
    | nil => rfl
    | cons c' cs2 => simp at h0; rw [← h0] at h1; simp at h1
  | cons c cs ih =>
    intro cs' l hnd hv hv' heq
    cases cs' with
    | nil =>
      have h0 := validChoices_length (c :: cs) l.length hv
      have h1 := validChoices_length [] l.length hv'
      simp at h1; rw [← h1] at h0; simp at h0
    | cons c' cs2 =>
      simp only [validChoices, Bool.and_eq_true, decide_eq_true_eq] at hv hv'
      simp only [popDrawAll, List.cons.injEq] at heq
      have hcc : c = c' := getD_inj_of_nodup l c c' hnd hv.1 hv'.1 heq.1
      subst hcc
      have hnd2 : (l.eraseIdx c).Nodup := List.Nodup.sublist (List.eraseIdx_sublist l c) hnd
      have hlen : (l.eraseIdx c).length = l.length - 1 := length_eraseIdx_of_lt l c hv.1
      have := ih cs2 (l.eraseIdx c) hnd2 (by rw [hlen]; exact hv.2) (by rw [hlen]; exact hv'.2)
        heq.2
      simp [this]

theorem popDrawAll_exists : ∀ (p l : List ℕ), l.Nodup → List.Perm p l →
    ∃ cs, validChoices cs l.length = true ∧ popDrawAll l cs = p := by
  intro p
  induction p with
  | nil =>
    intro l _ hp
    have : l = [] := List.Perm.eq_nil hp.symm
    subst this
    exact ⟨[], by simp [validChoices], rfl⟩
  | cons x p ih =>
    intro l hnd hp
    have hx : x ∈ l := hp.mem_iff.mp (List.mem_cons_self x p)
    obtain ⟨⟨c, hc⟩, hget⟩ := List.get_of_mem hx
    have hgd : l.getD c 0 = x := by rw [List.getD_eq_getElem l 0 hc]; simpa using hget
    have hperm : List.Perm l (x :: l.eraseIdx c) := by
      have := perm_getD_cons_eraseIdx l c hc
      rwa [hgd] at this
    have hp2 : List.Perm p (l.eraseIdx c) := List.Perm.cons_inv (hp.trans hperm)
    have hnd2 : (l.eraseIdx c).Nodup := List.Nodup.sublist (List.eraseIdx_sublist l c) hnd
    obtain ⟨cs, hvcs, hdraw⟩ := ih (l.eraseIdx c) hnd2 hp2
    refine ⟨c :: cs, ?_, ?_⟩
    · simp only [validChoices, Bool.and_eq_true, decide_eq_true_eq]
      exact ⟨hc, by rw [← length_eraseIdx_of_lt l c hc]; exact hvcs⟩
    · simp only [popDrawAll]
      rw [hgd, hdraw]

theorem genResult_length (w : ℕ) : ∀ (absent : List Bool) (pl cs : List ℕ),
    (genResult w absent pl cs).length = absent.length := by
  intro absent
  induction absent with
  | nil => intro pl cs; simp [genResult]
  | cons a rest ih =>
    intro pl cs
    cases a <;> cases cs <;> simp [genResult, ih]

theorem genResult_get?_absent (w : ℕ) : ∀ (absent : List Bool) (pl cs : List ℕ) (k : ℕ),
    absent.get? k = some true → (genResult w absent pl cs).get? k = some w := by
  intro absent
  induction absent with
  | nil => intro pl cs k h; simp at h
  | cons a rest ih =>
    intro pl cs k h
    cases k with
    | zero =>
      simp only [List.get?_cons_zero, Option.some.injEq] at h
      subst h
      cases cs <;> simp [genResult]
    | succ k =>
      simp only [List.get?_cons_succ] at h
      cases a <;> cases cs <;> simpa [genResult] using ih _ _ k h

theorem countFalse_cons_true (rest : List Bool) : countFalse (true :: rest) = countFalse rest := by
  simp [countFalse, List.countP_cons]

theorem countFalse_cons_false (rest : List Bool) :
    countFalse (false :: rest) = countFalse rest + 1 := by
  simp [countFalse, List.countP_cons]

theorem presentPositions_genResult (w : ℕ) : ∀ (absent : List Bool) (pl cs : List ℕ),
    cs.length = countFalse absent →
    presentPositions absent (genResult w absent pl cs) = popDrawAll pl cs := by
  intro absent
  induction absent with
  | nil =>
    intro pl cs h
    simp only [countFalse, List.countP_nil] at h
    have : cs = [] := List.length_eq_zero.mp h
    subst this
    simp [presentPositions, genResult, popDrawAll]
  | cons a rest ih =>
    intro pl cs h
    cases a with
    | true =>
      rw [countFalse_cons_true] at h
      simp only [genResult]
      cases cs with
      | nil => simpa [presentPositions, genResult] using ih pl [] h
      | cons c cs2 => simpa [presentPositions, genResult] using ih pl (c :: cs2) h
    | false =>
      rw [countFalse_cons_false] at h
      cases cs with
      | nil => simp at h
      | cons c cs2 =>
        have h2 : cs2.length = countFalse rest := by simpa using h
        simpa [presentPositions, genResult, popDrawAll] using ih (pl.eraseIdx c) cs2 h2

theorem get?_mem_presentPositions : ∀ (absent : List Bool) (rs : List ℕ) (k : ℕ),
    rs.length = absent.length → absent.get? k = some false →
    ∀ v, rs.get? k = some v → v ∈ presentPositions absent rs := by
  intro absent
  induction absent with
  | nil => intro rs k _ h; simp at h
  | cons a rest ih =>
    intro rs k hlen h v hv
    cases rs with
    | nil => simp at hlen
    | cons r rs2 =>
      have hlen2 : rs2.length = rest.length := by simpa using hlen
      cases k with
      | zero =>
        simp only [List.get?_cons_zero, Option.some.injEq] at h hv
        subst h; subst hv
        simp [presentPositions]
      | succ k =>
        simp only [List.get?_cons_succ] at h hv
        have := ih rs2 k hlen2 h v hv
        cases a <;> simp [presentPositions, this]

/-! Counting machinery for the fairness statement. -/

theorem mem_allValidChoices : ∀ (n : ℕ) (cs : List ℕ),
    cs ∈ allValidChoices n ↔ validChoices cs n = true := by
  intro n
  induction n with
  | zero =>
    intro cs
    constructor
    · intro h
      simp only [allValidChoices, List.mem_singleton] at h
      subst h
      simp [validChoices]
    · intro h
      cases cs with
      | nil => simp [allValidChoices]
      | cons c cs2 => simp [validChoices] at h
  | succ n ih =>
    intro cs
    simp only [allValidChoices, List.mem_flatMap, List.mem_map, List.mem_range]
    constructor
    · rintro ⟨c, hc, cs2, hcs2, rfl⟩
      simp only [validChoices, Bool.and_eq_true, decide_eq_true_eq, Nat.add_sub_cancel]
      exact ⟨hc, (ih cs2).mp hcs2⟩
    · intro h
      cases cs with
      | nil => simp [validChoices] at h
      | cons c cs2 =>
        simp only [validChoices, Bool.and_eq_true, decide_eq_true_eq,
          Nat.add_sub_cancel] at h
        exact ⟨c, h.1, cs2, (ih cs2).mpr h.2, rfl⟩

theorem allValidChoices_nodup : ∀ n : ℕ, (allValidChoices n).Nodup := by
  intro n
  induction n with
  | zero => simp [allValidChoices]
  | succ n ih =>
    rw [allValidChoices, List.nodup_flatMap]
    constructor
    · intro c _
      exact List.Nodup.map List.cons_injective ih
    · refine List.Pairwise.imp ?_ (List.nodup_range (n + 1))
      intro a b hab x hxa hxb
      simp only [List.mem_map] at hxa hxb
      obtain ⟨ca, _, rfl⟩ := hxa
      obtain ⟨cb, _, hcb⟩ := hxb
      exact hab (List.head_eq_of_cons_eq hcb.symm)

theorem countP_eq_one_of_unique {α : Type} (q : α → Bool) :
    ∀ (l : List α) (a : α), l.Nodup → a ∈ l → q a = true →
    (∀ b ∈ l, q b = true → b = a) → l.countP q = 1 := by
  intro l
  induction l with
  | nil => intro a _ ha; simp at ha
  | cons x xs ih =>
    intro a hnd ha hqa huniq
    have hndx : x ∉ xs := (List.nodup_cons.mp hnd).1
    have hnd2 : xs.Nodup := (List.nodup_cons.mp hnd).2
    rcases List.mem_cons.mp ha with rfl | hmem
    · have hz : xs.countP q = 0 := by
        rw [List.countP_eq_zero]
        intro b hb hqb
        exact hndx ((huniq b (List.mem_cons_of_mem a hb) hqb) ▸ hb)
      rw [List.countP_cons, hz, hqa]
      simp
    · have hqx : q x = false := by
        rcases Bool.eq_false_or_eq_true (q x) with h | h
        · exact absurd hmem ((huniq x (List.mem_cons_self x xs) h) ▸ hndx)
        · exact h
      rw [List.countP_cons, hqx,
        ih a hnd2 hmem hqa fun b hb hqb => huniq b (List.mem_cons_of_mem x hb) hqb]
      simp

/-- C4: in every trial the positions assigned to the present bands are pairwise
distinct, drawn without replacement, and form exactly a permutation of
`{1, ..., nPresent}`; moreover, with each `randrange` call uniform over its
range, every permutation of the present bands is equally likely: each
permutation `p` of `1..nPresent` is produced by exactly one valid sequence of
`randrange` outcomes, so all permutations have the same probability
`1 / nPresent!`. -/
theorem trial_positions_fair (absent : List Bool) (nPlayed : ℕ) (cs : List ℕ) (p : List ℕ)
    (hplay : nPlayed = countFalse absent)
    (hv : validChoices cs nPlayed = true)
    (hp : List.Perm p (List.range' 1 nPlayed)) :
    List.Perm (presentPositions absent (trialResult absent nPlayed cs))
      (List.range' 1 nPlayed)
    ∧ (presentPositions absent (trialResult absent nPlayed cs)).Nodup
    ∧ drawsYielding absent nPlayed p = 1 := by
  have hlenr : (List.range' 1 nPlayed).length = nPlayed := by simp
  have hndr : (List.range' 1 nPlayed).Nodup := List.nodup_range' 1 nPlayed
  have hbr : presentPositions absent (trialResult absent nPlayed cs) =
      popDrawAll (List.range' 1 nPlayed) cs := by
    apply presentPositions_genResult
    rw [validChoices_length cs nPlayed hv]
    exact hplay
  have hvl : validChoices cs (List.range' 1 nPlayed).length = true := by rw [hlenr]; exact hv
  have hperm := popDrawAll_perm cs (List.range' 1 nPlayed) hvl
  refine ⟨by rw [hbr]; exact hperm, by rw [hbr]; exact hperm.nodup_iff.mpr hndr, ?_⟩
  obtain ⟨cs0, hv0, hd0⟩ := popDrawAll_exists p (List.range' 1 nPlayed) hndr hp
  have hv0' : validChoices cs0 nPlayed = true := by rw [← hlenr]; exact hv0
  have hbr0 : presentPositions absent (trialResult absent nPlayed cs0) =
      popDrawAll (List.range' 1 nPlayed) cs0 := by
    apply presentPositions_genResult
    rw [validChoices_length cs0 nPlayed hv0']
    exact hplay
  unfold drawsYielding
  rw [← List.countP_eq_length_filter]
  apply countP_eq_one_of_unique _ _ cs0 (allValidChoices_nodup nPlayed)
  · exact (mem_allValidChoices nPlayed cs0).mpr hv0'
  · simp only [decide_eq_true_eq]
    rw [hbr0, hd0]
  · intro b hb hqb
    simp only [decide_eq_true_eq] at hqb
    have hvb : validChoices b nPlayed = true := (mem_allValidChoices nPlayed b).mp hb
    have hbrb : presentPositions absent (trialResult absent nPlayed b) =
        popDrawAll (List.range' 1 nPlayed) b := by
      apply presentPositions_genResult
      rw [validChoices_length b nPlayed hvb]
      exact hplay
    apply popDrawAll_inj b cs0 (List.range' 1 nPlayed) hndr (by rw [hlenr]; exact hvb) hv0
    rw [hd0, ← hqb, hbrb]

/-- Witness for C4 at a section of two present bands: the draw `[1, 0]` yields
the position list `[2, 1]`, a permutation of `[1, 2]`, and exactly one valid
draw yields it. -/
theorem trial_positions_fair_witness :
    (validChoices [1, 0] 2 = true
      ∧ List.Perm [2, 1] (List.range' 1 2))
    ∧ (List.Perm (presentPositions [false, false] (trialResult [false, false] 2 [1, 0]))
        (List.range' 1 2)
      ∧ (presentPositions [false, false] (trialResult [false, false] 2 [1, 0])).Nodup
      ∧ drawsYielding [false, false] 2 [2, 1] = 1) :=
  ⟨⟨by decide, by decide⟩,
    trial_positions_fair [false, false] 2 [1, 0] [2, 1] (by decide) (by decide) (by decide)⟩

/-! Classifier lemmas. -/

theorem sortScores_length (final : List ℤ) : (sortScores final).length = final.length :=
  (List.perm_insertionSort _ final).length_eq

theorem sortScores_sorted (final : List ℤ) : (sortScores final).Sorted (· ≤ ·) :=
  List.sorted_insertionSort _ final

theorem sortScores_getD_mono (final : List ℤ) (i j : ℕ) (hij : i ≤ j)
    (hj : j < final.length) : (sortScores final).getD i 0 ≤ (sortScores final).getD j 0 := by
  have hi : i < (sortScores final).length := by rw [sortScores_length]; omega
  have hj' : j < (sortScores final).length := by rw [sortScores_length]; exact hj
  rw [List.getD_eq_getElem _ 0 hi, List.getD_eq_getElem _ 0 hj']
  have := List.Sorted.rel_get_of_le (sortScores_sorted final)
    (show (⟨i, hi⟩ : Fin (sortScores final).length) ≤ ⟨j, hj'⟩ from Fin.mk_le_mk.mpr hij)
  simpa using this

theorem classify_eq (nBands nPromoted nRelegated : ℕ) (sorted : List ℤ) (iTotal : ℤ)
    (hp : nPromoted < sorted.length) (hr : nBands - nRelegated < sorted.length) :
    classify nBands nPromoted nRelegated sorted iTotal =
      some (if iTotal < sorted.getD nPromoted 0 then Outcome.promoted
        else if iTotal < sorted.getD (nBands - nRelegated) 0 then Outcome.stay
        else Outcome.relegated) := by
  simp only [classify, get?_eq_some_getD sorted 0 nPromoted hp,
    get?_eq_some_getD sorted 0 (nBands - nRelegated) hr]
  split_ifs <;> rfl

/-- A constant source of random choices, used to instantiate trial batches on
concrete inputs. -/
def constChoices (cs : List ℕ) : ℕ → List ℕ :=
  fun _ => cs

/-- A constant source of random choices for the whole driver. -/
def constChoices2 (cs : List ℕ) : ℕ → ℕ → List ℕ :=
  fun _ _ => cs

theorem finalScores_length : ∀ (start : List ℤ) (result : List ℕ),
    (finalScores start result).length = min start.length result.length := by
  intro start
  induction start with
  | nil => intro result; simp [finalScores]
  | cons s ss ih =>
    intro result
    cases result with
    | nil => simp [finalScores]
    | cons r rs =>
      simp only [finalScores] at ih ⊢
      simp only [List.zipWith_cons_cons, List.length_cons, ih rs]
      omega

theorem finalScores_get? : ∀ (start : List ℤ) (result : List ℕ) (k : ℕ),
    k < start.length → k < result.length →
    (finalScores start result).get? k = some (start.getD k 0 + (result.getD k 0 : ℤ)) := by
  intro start
  induction start with
  | nil => intro result k hs _; simp at hs
  | cons s ss ih =>
    intro result k hs hr
    cases result with
    | nil => simp at hr
    | cons r rs =>
      cases k with
      | zero => simp [finalScores, List.zipWith_cons_cons]
      | succ k =>
        have hs2 : k < ss.length := by simpa using hs
        have hr2 : k < rs.length := by simpa using hr
        simpa [finalScores, List.zipWith_cons_cons, List.getD_cons_succ] using ih rs k hs2 hr2

/-- C1: for every trial the target band is classified by sorting all `nBands`
final scores ascending and comparing its own (pre-sort) final score `iTotal`
against the cutoffs: promoted iff `iTotal < sortedFinals[nPromoted]`,
relegated iff `iTotal ≥ sortedFinals[nBands - nRelegated]`, stay otherwise;
a band exactly tied with the promotion cutoff is never promoted, and a band
tied with the relegation cutoff is always relegated. -/
theorem classifier_cutoffs (final : List ℤ) (iTotal : ℤ) (nBands nPromoted nRelegated : ℕ)
    (hlen : final.length = nBands)
    (hpr : nPromoted + nRelegated < nBands)
    (hrel : 1 ≤ nRelegated) :
    (sortScores final).Sorted (· ≤ ·)
    ∧ List.Perm (sortScores final) final
    ∧ classify nBands nPromoted nRelegated (sortScores final) iTotal =
        some (if iTotal < (sortScores final).getD nPromoted 0 then Outcome.promoted
          else if iTotal < (sortScores final).getD (nBands - nRelegated) 0 then Outcome.stay
          else Outcome.relegated)
    ∧ (classify nBands nPromoted nRelegated (sortScores final) iTotal = some Outcome.promoted
        ↔ iTotal < (sortScores final).getD nPromoted 0)
    ∧ (classify nBands nPromoted nRelegated (sortScores final) iTotal = some Outcome.relegated
        ↔ (sortScores final).getD (nBands - nRelegated) 0 ≤ iTotal)
    ∧ (classify nBands nPromoted nRelegated (sortScores final) iTotal = some Outcome.stay
        ↔ ((sortScores final).getD nPromoted 0 ≤ iTotal
          ∧ iTotal < (sortScores final).getD (nBands - nRelegated) 0))
    ∧ (iTotal = (sortScores final).getD nPromoted 0 →
        classify nBands nPromoted nRelegated (sortScores final) iTotal ≠ some Outcome.promoted)
    ∧ (iTotal = (sortScores final).getD (nBands - nRelegated) 0 →
        classify nBands nPromoted nRelegated (sortScores final) iTotal =
          some Outcome.relegated) := by
  have hp : nPromoted < (sortScores final).length := by rw [sortScores_length, hlen]; omega
  have hr : nBands - nRelegated < (sortScores final).length := by
    rw [sortScores_length, hlen]; omega
  have hmono : (sortScores final).getD nPromoted 0 ≤
      (sortScores final).getD (nBands - nRelegated) 0 :=
    sortScores_getD_mono final nPromoted (nBands - nRelegated) (by omega) (by omega)
  have hkey := classify_eq nBands nPromoted nRelegated (sortScores final) iTotal hp hr
  refine ⟨sortScores_sorted final, List.perm_insertionSort _ final, hkey, ?_, ?_, ?_, ?_, ?_⟩
  · rw [hkey]
    by_cases h1 : iTotal < (sortScores final).getD nPromoted 0
    · rw [if_pos h1]
      exact iff_of_true rfl h1
    · rw [if_neg h1]
      refine iff_of_false ?_ h1
      split_ifs <;> simp
  · rw [hkey]
    by_cases h2 : iTotal < (sortScores final).getD (nBands - nRelegated) 0
    · refine iff_of_false ?_ (not_le.mpr h2)
      split_ifs <;> simp
    · have h1 : ¬ iTotal < (sortScores final).getD nPromoted 0 := by
        intro h
        exact h2 (lt_of_lt_of_le h hmono)
      rw [if_neg h1, if_neg h2]
      exact iff_of_true rfl (not_lt.mp h2)
  · rw [hkey]
    by_cases h1 : iTotal < (sortScores final).getD nPromoted 0
    · rw [if_pos h1]
      refine iff_of_false (by simp) ?_
      intro h
      exact absurd h1 (not_lt.mpr h.1)
    · rw [if_neg h1]
      by_cases h2 : iTotal < (sortScores final).getD (nBands - nRelegated) 0
      · rw [if_pos h2]
        exact iff_of_true rfl ⟨not_lt.mp h1, h2⟩
      · rw [if_neg h2]
        refine iff_of_false (by simp) ?_
        intro h
        exact h2 h.2
  · intro hEq
    rw [hkey]
    have h1 : ¬ iTotal < (sortScores final).getD nPromoted 0 := by
      rw [hEq]
      exact lt_irrefl _
    rw [if_neg h1]
    split_ifs <;> simp
  · intro hEq
    have h2 : ¬ iTotal < (sortScores final).getD (nBands - nRelegated) 0 := by
      rw [hEq]
      exact lt_irrefl _
    have h1 : ¬ iTotal < (sortScores final).getD nPromoted 0 := by
      intro h
      exact h2 (lt_of_lt_of_le h hmono)
    rw [hkey, if_neg h1, if_neg h2]

/-- Witness for C1 at the worked example of the specification: three bands
with equal priors and positions `[1, 2, 3]`, target score `2`, one band
promoted, one relegated: the target stays. -/
theorem classifier_cutoffs_witness :
    (([(1 : ℤ), 2, 3].length = 3 ∧ 1 + 1 < 3 ∧ 1 ≤ 1)
      ∧ (classify 3 1 1 (sortScores [(1 : ℤ), 2, 3]) 2 = some Outcome.stay))
    ∧ ((sortScores [(1 : ℤ), 2, 3]).Sorted (· ≤ ·)
      ∧ List.Perm (sortScores [(1 : ℤ), 2, 3]) [(1 : ℤ), 2, 3]
      ∧ classify 3 1 1 (sortScores [(1 : ℤ), 2, 3]) 2 =
          some (if (2 : ℤ) < (sortScores [(1 : ℤ), 2, 3]).getD 1 0 then Outcome.promoted
            else if (2 : ℤ) < (sortScores [(1 : ℤ), 2, 3]).getD (3 - 1) 0 then Outcome.stay
            else Outcome.relegated)
      ∧ (classify 3 1 1 (sortScores [(1 : ℤ), 2, 3]) 2 = some Outcome.promoted
          ↔ (2 : ℤ) < (sortScores [(1 : ℤ), 2, 3]).getD 1 0)
      ∧ (classify 3 1 1 (sortScores [(1 : ℤ), 2, 3]) 2 = some Outcome.relegated
          ↔ (sortScores [(1 : ℤ), 2, 3]).getD (3 - 1) 0 ≤ 2)
      ∧ (classify 3 1 1 (sortScores [(1 : ℤ), 2, 3]) 2 = some Outcome.stay
          ↔ ((sortScores [(1 : ℤ), 2, 3]).getD 1 0 ≤ 2
            ∧ (2 : ℤ) < (sortScores [(1 : ℤ), 2, 3]).getD (3 - 1) 0))
      ∧ ((2 : ℤ) = (sortScores [(1 : ℤ), 2, 3]).getD 1 0 →
          classify 3 1 1 (sortScores [(1 : ℤ), 2, 3]) 2 ≠ some Outcome.promoted)
      ∧ ((2 : ℤ) = (sortScores [(1 : ℤ), 2, 3]).getD (3 - 1) 0 →
          classify 3 1 1 (sortScores [(1 : ℤ), 2, 3]) 2 = some Outcome.relegated)) :=
  ⟨⟨⟨by decide, by decide, by decide⟩, by decide⟩,
    classifier_cutoffs [(1 : ℤ), 2, 3] 2 3 1 1 (by decide) (by decide) (by decide)⟩

/-- C5: in every trial, every band at an absent index is assigned exactly the
fixed position value `nPlayed + 1`, whatever the random draw and however many
bands are absent, and every band's final score is its prior two-period total
plus its assigned position value. -/
theorem absent_band_position (start : List ℤ) (absent : List Bool) (nPlayed k : ℕ)
    (cs : List ℕ)
    (hk : k < absent.length)
    (hlen : start.length = absent.length) :
    (absent.get? k = some true →
      (trialResult absent nPlayed cs).get? k = some (nPlayed + 1))
    ∧ (finalScores start (trialResult absent nPlayed cs)).get? k =
        some (start.getD k 0 + ((trialResult absent nPlayed cs).getD k 0 : ℤ)) := by
  have hreslen : (trialResult absent nPlayed cs).length = absent.length :=
    genResult_length (nPlayed + 1) absent (List.range' 1 nPlayed) cs
  constructor
  · intro h
    exact genResult_get?_absent (nPlayed + 1) absent (List.range' 1 nPlayed) cs k h
  · exact finalScores_get? start (trialResult absent nPlayed cs) k (by omega)
      (by rw [hreslen]; exact hk)

/-- Witness for C5: two bands with priors 5 and 7, the first marked absent in
a one-present-band section, gets position 2 and final score 7. -/
theorem absent_band_position_witness :
    ((0 < [true, false].length ∧ [(5 : ℤ), 7].length = [true, false].length)
      ∧ [true, false].get? 0 = some true)
    ∧ (([true, false].get? 0 = some true →
        (trialResult [true, false] 1 [0]).get? 0 = some 2)
      ∧ (finalScores [(5 : ℤ), 7] (trialResult [true, false] 1 [0])).get? 0 =
          some ((5 : ℤ) + ((trialResult [true, false] 1 [0]).getD 0 0 : ℤ))) := by
  refine ⟨⟨⟨by decide, by decide⟩, by decide⟩, ?_⟩
  have h := absent_band_position [(5 : ℤ), 7] [true, false] 1 0 [0] (by decide) (by decide)
  exact ⟨fun ha => h.1 ha, h.2⟩

/-! Aggregator lemmas. -/

theorem bump_cons_zero (x : ℕ) (xs : List ℕ) : bump (x :: xs) 0 = (x + 1) :: xs := by
  simp [bump, List.getD_cons_zero]

theorem bump_cons_succ (x : ℕ) (xs : List ℕ) (b : ℕ) :
    bump (x :: xs) (b + 1) = x :: bump xs b := by
  simp [bump, List.getD_cons_succ]

theorem bump_length (l : List ℕ) (b : ℕ) : (bump l b).length = l.length := by
  simp [bump]

theorem bump_sum : ∀ (l : List ℕ) (b : ℕ), b < l.length → (bump l b).sum = l.sum + 1 := by
  intro l
  induction l with
  | nil => intro b h; simp at h
  | cons x xs ih =>
    intro b h
    cases b with
    | zero =>
      rw [bump_cons_zero]
      simp [List.sum_cons]
      omega
    | succ b =>
      have hb : b < xs.length := by simpa using h
      rw [bump_cons_succ]
      simp [List.sum_cons, ih b hb]
      omega

theorem bump_getD_self : ∀ (l : List ℕ) (b : ℕ), b < l.length →
    (bump l b).getD b 0 = l.getD b 0 + 1 := by
  intro l
  induction l with
  | nil => intro b h; simp at h
  | cons x xs ih =>
    intro b h
    cases b with
    | zero => rw [bump_cons_zero]; simp [List.getD_cons_zero]
    | succ b =>
      have hb : b < xs.length := by simpa using h
      rw [bump_cons_succ]
      simp only [List.getD_cons_succ]
      exact ih b hb

theorem bump_getD_ne : ∀ (l : List ℕ) (b b' : ℕ), b' ≠ b →
    (bump l b).getD b' 0 = l.getD b' 0 := by
  intro l
  induction l with
  | nil => intro b b' _; simp [bump]
  | cons x xs ih =>
    intro b b' hne
    cases b with
    | zero =>
      rw [bump_cons_zero]
      cases b' with
      | zero => exact absurd rfl hne
      | succ b' => simp [List.getD_cons_succ]
    | succ b =>
      rw [bump_cons_succ]
      cases b' with
      | zero => simp [List.getD_cons_zero]
      | succ b' =>
        simp only [List.getD_cons_succ]
        exact ih b b' fun h => hne (by rw [h])

/-- Length invariant of the three counter arrays. -/
def TallyLen (t : Tally) (n : ℕ) : Prop :=
  t.promoted.length = n ∧ t.stay.length = n ∧ t.relegated.length = n

theorem TallyLen_init (n : ℕ) : TallyLen (Tally.init n) n := by
  simp [Tally.init, TallyLen]

theorem TallyLen_update (t : Tally) (n b : ℕ) (o : Outcome) (h : TallyLen t n) :
    TallyLen (t.update b o) n := by
  obtain ⟨h1, h2, h3⟩ := h
  cases o <;> simp [Tally.update, TallyLen, bump_length, h1, h2, h3]

theorem total_update (t : Tally) (n b : ℕ) (o : Outcome) (h : TallyLen t n) (hb : b < n) :
    (t.update b o).total = t.total + 1 := by
  obtain ⟨h1, h2, h3⟩ := h
  cases o with
  | promoted =>
    simp only [Tally.update, Tally.total]
    rw [bump_sum t.promoted b (by omega)]
    omega
  | stay =>
    simp only [Tally.update, Tally.total]
    rw [bump_sum t.stay b (by omega)]
    omega
  | relegated =>
    simp only [Tally.update, Tally.total]
    rw [bump_sum t.relegated b (by omega)]
    omega

theorem bucketTotal_update_self (t : Tally) (n b : ℕ) (o : Outcome) (h : TallyLen t n)
    (hb : b < n) : bucketTotal (t.update b o) b = bucketTotal t b + 1 := by
  obtain ⟨h1, h2, h3⟩ := h
  cases o with
  | promoted =>
    simp only [Tally.update, bucketTotal]
    rw [bump_getD_self t.promoted b (by omega)]
    omega
  | stay =>
    simp only [Tally.update, bucketTotal]
    rw [bump_getD_self t.stay b (by omega)]
    omega
  | relegated =>
    simp only [Tally.update, bucketTotal]
    rw [bump_getD_self t.relegated b (by omega)]
    omega

theorem bucketTotal_update_ne (t : Tally) (b b' : ℕ) (o : Outcome) (hne : b' ≠ b) :
    bucketTotal (t.update b o) b' = bucketTotal t b' := by
  cases o with
  | promoted =>
    simp only [Tally.update, bucketTotal]
    rw [bump_getD_ne t.promoted b b' hne]
  | stay =>
    simp only [Tally.update, bucketTotal]
    rw [bump_getD_ne t.stay b b' hne]
  | relegated =>
    simp only [Tally.update, bucketTotal]
    rw [bump_getD_ne t.relegated b b' hne]

theorem trialP_bucket_lt (start : List ℤ) (absent : List Bool)
    (nPlayed nPromoted nRelegated i : ℕ) (cs : List ℕ) (bo : ℕ × Outcome)
    (h : trialP start absent nPlayed nPromoted nRelegated i cs = some bo) :
    bo.1 < nPlayed := by
  unfold trialP at h
  cases h1 : (trialResult absent nPlayed cs).get? i with
  | none => rw [h1] at h; exact absurd h (by simp)
  | some iRes =>
    rw [h1] at h
    cases h2 : trialOutcome start absent nPlayed nPromoted nRelegated i cs with
    | none => rw [h2] at h; exact absurd h (by simp)
    | some o =>
      rw [h2] at h
      have h' : (if iRes - 1 < nPlayed then some (iRes - 1, o) else none) = some bo := h
      by_cases h3 : iRes - 1 < nPlayed
      · rw [if_pos h3] at h'
        cases h'
        exact h3
      · rw [if_neg h3] at h'
        exact absurd h' (by simp)

theorem runPresent_TallyLen (start : List ℤ) (absent : List Bool)
    (nPlayed nPromoted nRelegated i : ℕ) :
    ∀ (css : List (List ℕ)) (t t' : Tally), TallyLen t nPlayed →
    runPresent start absent nPlayed nPromoted nRelegated i css t = some t' →
    TallyLen t' nPlayed := by
  intro css
  induction css with
  | nil =>
    intro t t' ht h
    cases h
    exact ht
  | cons cs css ih =>
    intro t t' ht h
    unfold runPresent at h
    cases h1 : trialP start absent nPlayed nPromoted nRelegated i cs with
    | none => rw [h1] at h; exact absurd h (by simp)
    | some bo =>
      rw [h1] at h
      exact ih (t.update bo.1 bo.2) t' (TallyLen_update t nPlayed bo.1 bo.2 ht) h

theorem runPresent_total (start : List ℤ) (absent : List Bool)
    (nPlayed nPromoted nRelegated i : ℕ) :
    ∀ (css : List (List ℕ)) (t t' : Tally), TallyLen t nPlayed →
    runPresent start absent nPlayed nPromoted nRelegated i css t = some t' →
    t'.total = t.total + css.length := by
  intro css
  induction css with
  | nil =>
    intro t t' _ h
    cases h
    simp
  | cons cs css ih =>
    intro t t' ht h
    unfold runPresent at h
    cases h1 : trialP start absent nPlayed nPromoted nRelegated i cs with
    | none => rw [h1] at h; exact absurd h (by simp)
    | some bo =>
      rw [h1] at h
      have h' : runPresent start absent nPlayed nPromoted nRelegated i css
          (t.update bo.1 bo.2) = some t' := h
      have hb : bo.1 < nPlayed := trialP_bucket_lt start absent nPlayed nPromoted nRelegated
        i cs bo h1
      have hrec := ih (t.update bo.1 bo.2) t' (TallyLen_update t nPlayed bo.1 bo.2 ht) h'
      rw [hrec, total_update t nPlayed bo.1 bo.2 ht hb]
      simp only [List.length_cons]
      omega

theorem runPresent_bucketTotal (start : List ℤ) (absent : List Bool)
    (nPlayed nPromoted nRelegated i : ℕ) :
    ∀ (css : List (List ℕ)) (t t' : Tally) (b : ℕ), TallyLen t nPlayed →
    runPresent start absent nPlayed nPromoted nRelegated i css t = some t' →
    bucketTotal t' b = bucketTotal t b +
      landedInBucket start absent nPlayed nPromoted nRelegated i css b := by
  intro css
  induction css with
  | nil =>
    intro t t' b _ h
    cases h
    simp [landedInBucket]
  | cons cs css ih =>
    intro t t' b ht h
    unfold runPresent at h
    cases h1 : trialP start absent nPlayed nPromoted nRelegated i cs with
    | none => rw [h1] at h; exact absurd h (by simp)
    | some bo =>
      rw [h1] at h
      have h' : runPresent start absent nPlayed nPromoted nRelegated i css
          (t.update bo.1 bo.2) = some t' := h
      have hb : bo.1 < nPlayed := trialP_bucket_lt start absent nPlayed nPromoted nRelegated
        i cs bo h1
      have hrest := ih (t.update bo.1 bo.2) t' b (TallyLen_update t nPlayed bo.1 bo.2 ht) h'
      have hcons : landedInBucket start absent nPlayed nPromoted nRelegated i (cs :: css) b =
          landedInBucket start absent nPlayed nPromoted nRelegated i css b +
            (if bo.1 = b then 1 else 0) := by
        simp only [landedInBucket, List.countP_cons, h1, Option.map_some]
        by_cases heq : bo.1 = b
        · simp [beq_iff_eq, heq]
        · simp [beq_iff_eq, heq]
      rw [hrest, hcons]
      by_cases heq : bo.1 = b
      · subst heq
        have hif : (if bo.1 = bo.1 then (1 : ℕ) else 0) = 1 := by simp
        rw [hif, bucketTotal_update_self t nPlayed bo.1 bo.2 ht hb]
        omega
      · rw [bucketTotal_update_ne t bo.1 b bo.2 fun hx => heq hx.symm]
        rw [if_neg heq]
        omega

theorem runAbsent_total (start : List ℤ) (absent : List Bool)
    (nPlayed nPromoted nRelegated i : ℕ) :
    ∀ (css : List (List ℕ)) (c c' : ℕ × ℕ × ℕ),
    runAbsent start absent nPlayed nPromoted nRelegated i css c = some c' →
    c'.1 + c'.2.1 + c'.2.2 = c.1 + c.2.1 + c.2.2 + css.length := by
  intro css
  induction css with
  | nil =>
    intro c c' h
    cases h
    simp
  | cons cs css ih =>
    intro c c' h
    unfold runAbsent at h
    cases h1 : trialOutcome start absent nPlayed nPromoted nRelegated i cs with
    | none => rw [h1] at h; exact absurd h (by simp)
    | some o =>
      rw [h1] at h
      have := ih (bump3 c o) c' h
      rw [this]
      cases o <;> simp [bump3, List.length_cons] <;> omega

theorem getD_replicate_zero : ∀ (n b : ℕ), (List.replicate n (0 : ℕ)).getD b 0 = 0 := by
  intro n
  induction n with
  | zero => intro b; simp
  | succ n ih =>
    intro b
    cases b with
    | zero => simp [List.replicate_succ, List.getD_cons_zero]
    | succ b => simp only [List.replicate_succ, List.getD_cons_succ]; exact ih b

theorem bucketTotal_init (n b : ℕ) : bucketTotal (Tally.init n) b = 0 := by
  simp [Tally.init, bucketTotal, getD_replicate_zero]

theorem total_init (n : ℕ) : (Tally.init n).total = 0 := by
  simp [Tally.init, Tally.total]

/-- C9: each successful trial increments exactly one of the three counters of
exactly one bucket, so after any batch, for every finishing-position bucket
the sum `promoted + stay + relegated` equals the number of trials in which
the target band landed in that bucket. -/
theorem bucket_conservation (start : List ℤ) (absent : List Bool)
    (nPlayed nPromoted nRelegated i : ℕ) (css : List (List ℕ)) (b : ℕ) (t : Tally)
    (hrun : runPresent start absent nPlayed nPromoted nRelegated i css
      (Tally.init nPlayed) = some t) :
    bucketTotal t b = landedInBucket start absent nPlayed nPromoted nRelegated i css b := by
  have h := runPresent_bucketTotal start absent nPlayed nPromoted nRelegated i css
    (Tally.init nPlayed) t b (TallyLen_init nPlayed) hrun
  rw [h, bucketTotal_init]
  omega

/-- Witness for C9: one trial of a two-band section lands the target in
bucket 0; the bucket sums match the landing counts. -/
theorem bucket_conservation_witness :
    (runPresent [(0 : ℤ), 0] [false, false] 2 1 1 0 [[0, 0]] (Tally.init 2) =
      some ⟨[1, 0], [0, 0], [0, 0]⟩)
    ∧ bucketTotal ⟨[1, 0], [0, 0], [0, 0]⟩ 0 =
        landedInBucket [(0 : ℤ), 0] [false, false] 2 1 1 0 [[0, 0]] 0 :=
  ⟨by decide,
    bucket_conservation [(0 : ℤ), 0] [false, false] 2 1 1 0 [[0, 0]] 0
      ⟨[1, 0], [0, 0], [0, 0]⟩ (by decide)⟩

/-- C6: a present target band's batch runs exactly
`nSamplesPerBand * nBands` trials (each recorded once in the tally), while an
absent target band's batch runs exactly `nSamplesPerBand` trials, all mapped
to the single synthetic bucket labelled with the forced worst position
`nPlayed + 1`. -/
theorem trial_counts (start : List ℤ) (absent : List Bool)
    (nPlayed nPromoted nRelegated nSamplesPerBand i : ℕ) (rnd : ℕ → List ℕ)
    (hsome : (analyseBand start absent nPlayed nPromoted nRelegated nSamplesPerBand
      i rnd).isSome = true) :
    (absent.getD i false = false →
      (analyseBand start absent nPlayed nPromoted nRelegated nSamplesPerBand i rnd).map
        aggTotal = some (nSamplesPerBand * start.length))
    ∧ (absent.getD i false = true →
      (analyseBand start absent nPlayed nPromoted nRelegated nSamplesPerBand i rnd).map
        aggTotal = some nSamplesPerBand
      ∧ (analyseBand start absent nPlayed nPromoted nRelegated nSamplesPerBand i rnd).map
          (bucketLabels nPlayed) = some [nPlayed + 1]) := by
  constructor
  · intro hpres
    unfold analyseBand at hsome ⊢
    simp only [hpres, Bool.false_eq_true, if_false] at hsome ⊢
    cases hr : runPresent start absent nPlayed nPromoted nRelegated i
        ((List.range (nSamplesPerBand * start.length)).map rnd) (Tally.init nPlayed) with
    | none => rw [hr] at hsome; simp at hsome
    | some t =>
      have htot := runPresent_total start absent nPlayed nPromoted nRelegated i
        ((List.range (nSamplesPerBand * start.length)).map rnd) (Tally.init nPlayed) t
        (TallyLen_init nPlayed) hr
      rw [total_init] at htot
      have hlen2 : ((List.range (nSamplesPerBand * start.length)).map rnd).length =
          nSamplesPerBand * start.length := by simp
      have htot2 : t.total = nSamplesPerBand * start.length := by
        rw [htot, hlen2]
        omega
      simp only [Option.map_some', aggTotal, htot2]
  · intro habs
    unfold analyseBand at hsome ⊢
    simp only [habs, if_true] at hsome ⊢
    cases hr : runAbsent start absent nPlayed nPromoted nRelegated i
        ((List.range nSamplesPerBand).map rnd) (0, 0, 0) with
    | none => rw [hr] at hsome; simp at hsome
    | some c =>
      have htot := runAbsent_total start absent nPlayed nPromoted nRelegated i
        ((List.range nSamplesPerBand).map rnd) (0, 0, 0) c hr
      have hlen2 : ((List.range nSamplesPerBand).map rnd).length = nSamplesPerBand := by simp
      have htot2 : c.1 + c.2.1 + c.2.2 = nSamplesPerBand := by
        rw [htot, hlen2]
        show 0 + 0 + 0 + nSamplesPerBand = nSamplesPerBand
        omega
      constructor
      · simp only [Option.map_some', aggTotal, htot2]
      · simp [bucketLabels, reportOf, reportAbsent]

/-- Witness for C6 at an absent target band: two trials are run and the
single report row is labelled with the worst position 2. -/
theorem trial_counts_witness :
    (analyseBand [(0 : ℤ), 0] [true, false] 1 1 1 2 0 (constChoices [0])).isSome = true
    ∧ (([true, false].getD 0 false = false →
        (analyseBand [(0 : ℤ), 0] [true, false] 1 1 1 2 0 (constChoices [0])).map
          aggTotal = some (2 * [(0 : ℤ), 0].length))
      ∧ ([true, false].getD 0 false = true →
        (analyseBand [(0 : ℤ), 0] [true, false] 1 1 1 2 0 (constChoices [0])).map
          aggTotal = some 2
        ∧ (analyseBand [(0 : ℤ), 0] [true, false] 1 1 1 2 0 (constChoices [0])).map
            (bucketLabels 1) = some [1 + 1])) :=
  ⟨by decide,
    trial_counts [(0 : ℤ), 0] [true, false] 1 1 1 2 0 (constChoices [0]) (by decide)⟩

/-- C8: a finishing-position bucket that received zero trials has bucket total
zero and its report row carries `none` (the model of numpy's NaN from `0/0`)
in all three percentage places: the undefined percentage is explicitly
flagged, never silently reported as the number 0. -/
theorem degenerate_bucket_flagged (start : List ℤ) (absent : List Bool)
    (nPlayed nPromoted nRelegated i : ℕ) (css : List (List ℕ)) (b : ℕ) (t : Tally)
    (hb : b < nPlayed)
    (hrun : runPresent start absent nPlayed nPromoted nRelegated i css
      (Tally.init nPlayed) = some t)
    (hzero : landedInBucket start absent nPlayed nPromoted nRelegated i css b = 0) :
    bucketTotal t b = 0
    ∧ (reportPresent nPlayed t).get? b = some (b + 1, (none, none, none)) := by
  have h1 : bucketTotal t b = 0 := by
    have h := runPresent_bucketTotal start absent nPlayed nPromoted nRelegated i css
      (Tally.init nPlayed) t b (TallyLen_init nPlayed) hrun
    rw [h, bucketTotal_init, hzero]
  refine ⟨h1, ?_⟩
  unfold reportPresent
  rw [List.get?_map, List.get?_range hb]
  simp [pct, h1]

/-- Witness for C8: in a two-band section a single trial lands the target in
bucket 0, so bucket 1 is degenerate and its row is flagged with nones. -/
theorem degenerate_bucket_flagged_witness :
    (1 < 2
      ∧ runPresent [(0 : ℤ), 0] [false, false] 2 1 1 0 [[0, 0]] (Tally.init 2) =
          some ⟨[1, 0], [0, 0], [0, 0]⟩
      ∧ landedInBucket [(0 : ℤ), 0] [false, false] 2 1 1 0 [[0, 0]] 1 = 0)
    ∧ (bucketTotal ⟨[1, 0], [0, 0], [0, 0]⟩ 1 = 0
      ∧ (reportPresent 2 ⟨[1, 0], [0, 0], [0, 0]⟩).get? 1 = some (1 + 1, (none, none, none))) :=
  ⟨⟨by decide, by decide, by decide⟩,
    degenerate_bucket_flagged [(0 : ℤ), 0] [false, false] 2 1 1 0 [[0, 0]] 1
      ⟨[1, 0], [0, 0], [0, 0]⟩ (by decide) (by decide) (by decide)⟩

/-! Frame lemmas: names and prior scores are never mutated. -/

theorem trialStep_frame (absent : List Bool) (nPlayed nPromoted nRelegated i : ℕ)
    (st st' : SimState) (cs : List ℕ)
    (h : trialStep absent nPlayed nPromoted nRelegated i st cs = some st') :
    st'.names = st.names ∧ st'.start = st.start := by
  unfold trialStep at h
  cases h1 : trialP st.start absent nPlayed nPromoted nRelegated i cs with
  | none => rw [h1] at h; exact absurd h (by simp)
  | some bo =>
    rw [h1] at h
    have h' : some (⟨st.names, st.start, st.tally.update bo.1 bo.2⟩ : SimState) = some st' := h
    cases h'
    exact ⟨rfl, rfl⟩

theorem runBatch_frame (absent : List Bool) (nPlayed nPromoted nRelegated i : ℕ) :
    ∀ (css : List (List ℕ)) (st st' : SimState),
    runBatch absent nPlayed nPromoted nRelegated i css st = some st' →
    st'.names = st.names ∧ st'.start = st.start := by
  intro css
  induction css with
  | nil =>
    intro st st' h
    cases h
    exact ⟨rfl, rfl⟩
  | cons cs css ih =>
    intro st st' h
    unfold runBatch at h
    cases h1 : trialStep absent nPlayed nPromoted nRelegated i st cs with
    | none => rw [h1] at h; exact absurd h (by simp)
    | some st2 =>
      rw [h1] at h
      have h' : runBatch absent nPlayed nPromoted nRelegated i css st2 = some st' := h
      have hstep := trialStep_frame absent nPlayed nPromoted nRelegated i st st2 cs h1
      have hrest := ih st2 st' h'
      exact ⟨hrest.1.trans hstep.1, hrest.2.trans hstep.2⟩

/-- C10: the loaded names and the prior-score vector are never mutated during
an analysis run: each trial builds its final-score vector afresh from
`start`, the in-place sort touches only that per-trial vector, and the driver
threads `names` and `start` unchanged through every band's batch, so every
band's batch observes identical prior scores. -/
theorem prior_scores_immutable (absent : List Bool)
    (nPlayed nPromoted nRelegated nSamples : ℕ) (rnd : ℕ → ℕ → List ℕ) :
    ∀ (is : List ℕ) (st st' : SimState),
    runAllBands absent nPlayed nPromoted nRelegated nSamples rnd is st = some st' →
    st'.names = st.names ∧ st'.start = st.start := by
  intro is
  induction is with
  | nil =>
    intro st st' h
    cases h
    exact ⟨rfl, rfl⟩
  | cons i is ih =>
    intro st st' h
    unfold runAllBands at h
    cases h1 : runBatch absent nPlayed nPromoted nRelegated i
        ((List.range nSamples).map (rnd i)) st with
    | none => rw [h1] at h; exact absurd h (by simp)
    | some st2 =>
      rw [h1] at h
      have h' : runAllBands absent nPlayed nPromoted nRelegated nSamples rnd is st2 =
          some st' := h
      have hstep := runBatch_frame absent nPlayed nPromoted nRelegated i _ st st2 h1
      have hrest := ih st2 st' h'
      exact ⟨hrest.1.trans hstep.1, hrest.2.trans hstep.2⟩

/-- Witness for C10: a one-band driver run ends with the same names and the
same prior-score vector it started with. -/
theorem prior_scores_immutable_witness :
    (runAllBands [false] 1 0 1 1 (constChoices2 [0]) [0]
        ⟨["A"], [0], Tally.init 1⟩ = some ⟨["A"], [0], ⟨[0], [0], [1]⟩⟩)
    ∧ (SimState.names ⟨["A"], [0], ⟨[0], [0], [1]⟩⟩ =
        SimState.names ⟨["A"], [0], Tally.init 1⟩
      ∧ SimState.start ⟨["A"], [0], ⟨[0], [0], [1]⟩⟩ =
        SimState.start ⟨["A"], [0], Tally.init 1⟩) :=
  ⟨by decide,
    prior_scores_immutable [false] 1 0 1 1 (constChoices2 [0]) [0]
      ⟨["A"], [0], Tally.init 1⟩ ⟨["A"], [0], ⟨[0], [0], [1]⟩⟩ (by decide)⟩

/-! Totality lemmas for the amended C2. -/

theorem trialOutcome_isSome (start : List ℤ) (absent : List Bool)
    (nPlayed nPromoted nRelegated i : ℕ) (cs : List ℕ)
    (hlen : absent.length = start.length)
    (hpr : nPromoted + nRelegated < start.length)
    (hrel : 1 ≤ nRelegated)
    (hi : i < start.length) :
    (trialOutcome start absent nPlayed nPromoted nRelegated i cs).isSome = true := by
  have hreslen : (trialResult absent nPlayed cs).length = absent.length :=
    genResult_length (nPlayed + 1) absent (List.range' 1 nPlayed) cs
  have hfl : (finalScores start (trialResult absent nPlayed cs)).length = start.length := by
    rw [finalScores_length, hreslen, hlen]
    omega
  have hi2 : i < (finalScores start (trialResult absent nPlayed cs)).length := by
    rw [hfl]
    exact hi
  have hp : nPromoted <
      (sortScores (finalScores start (trialResult absent nPlayed cs))).length := by
    rw [sortScores_length, hfl]
    omega
  have hr : start.length - nRelegated <
      (sortScores (finalScores start (trialResult absent nPlayed cs))).length := by
    rw [sortScores_length, hfl]
    omega
  unfold trialOutcome
  show (match (finalScores start (trialResult absent nPlayed cs)).get? i with
    | none => none
    | some iTotal => classify start.length nPromoted nRelegated
        (sortScores (finalScores start (trialResult absent nPlayed cs))) iTotal).isSome = true
  rw [get?_eq_some_getD _ 0 i hi2]
  show (classify start.length nPromoted nRelegated
      (sortScores (finalScores start (trialResult absent nPlayed cs)))
      ((finalScores start (trialResult absent nPlayed cs)).getD i 0)).isSome = true
  rw [classify_eq _ _ _ _ _ hp hr]
  rfl

theorem trialResult_present_bound (absent : List Bool) (nPlayed i : ℕ) (cs : List ℕ)
    (hplay : nPlayed = countFalse absent)
    (hv : validChoices cs nPlayed = true)
    (hpres : absent.get? i = some false) :
    1 ≤ (trialResult absent nPlayed cs).getD i 0
    ∧ (trialResult absent nPlayed cs).getD i 0 ≤ nPlayed := by
  have hreslen : (trialResult absent nPlayed cs).length = absent.length :=
    genResult_length (nPlayed + 1) absent (List.range' 1 nPlayed) cs
  have hi : i < absent.length := by
    obtain ⟨h, _⟩ := List.get?_eq_some.mp hpres
    exact h
  have hmem := get?_mem_presentPositions absent (trialResult absent nPlayed cs) i
    (by rw [hreslen]) hpres ((trialResult absent nPlayed cs).getD i 0)
    (get?_eq_some_getD _ 0 i (by rw [hreslen]; exact hi))
  have hbr : presentPositions absent (trialResult absent nPlayed cs) =
      popDrawAll (List.range' 1 nPlayed) cs := by
    apply presentPositions_genResult
    rw [validChoices_length cs nPlayed hv]
    exact hplay
  have hperm := popDrawAll_perm cs (List.range' 1 nPlayed)
    (by rw [List.length_range']; exact hv)
  rw [hbr] at hmem
  have hmem2 := hperm.mem_iff.mp hmem
  rw [List.mem_range'_1] at hmem2
  omega

theorem trialP_isSome (start : List ℤ) (absent : List Bool)
    (nPlayed nPromoted nRelegated i : ℕ) (cs : List ℕ)
    (hlen : absent.length = start.length)
    (hpr : nPromoted + nRelegated < start.length)
    (hrel : 1 ≤ nRelegated)
    (hi : i < start.length)
    (hplay : nPlayed = countFalse absent)
    (hv : validChoices cs nPlayed = true)
    (hpres : absent.get? i = some false) :
    (trialP start absent nPlayed nPromoted nRelegated i cs).isSome = true := by
  have hreslen : (trialResult absent nPlayed cs).length = absent.length :=
    genResult_length (nPlayed + 1) absent (List.range' 1 nPlayed) cs
  have hi2 : i < (trialResult absent nPlayed cs).length := by
    rw [hreslen, hlen]
    exact hi
  unfold trialP
  rw [get?_eq_some_getD _ 0 i hi2]
  have ho := trialOutcome_isSome start absent nPlayed nPromoted nRelegated i cs
    hlen hpr hrel hi
  obtain ⟨o, ho2⟩ := Option.isSome_iff_exists.mp ho
  show (match trialOutcome start absent nPlayed nPromoted nRelegated i cs with
    | none => none
    | some o =>
      if (trialResult absent nPlayed cs).getD i 0 - 1 < nPlayed then
        some ((trialResult absent nPlayed cs).getD i 0 - 1, o)
      else none).isSome = true
  rw [ho2]
  have hbound := trialResult_present_bound absent nPlayed i cs hplay hv hpres
  have hlt : (trialResult absent nPlayed cs).getD i 0 - 1 < nPlayed := by omega
  show (if (trialResult absent nPlayed cs).getD i 0 - 1 < nPlayed then
      some ((trialResult absent nPlayed cs).getD i 0 - 1, o) else none).isSome = true
  rw [if_pos hlt]
  rfl

theorem runPresent_isSome (start : List ℤ) (absent : List Bool)
    (nPlayed nPromoted nRelegated i : ℕ)
    (hlen : absent.length = start.length)
    (hpr : nPromoted + nRelegated < start.length)
    (hrel : 1 ≤ nRelegated)
    (hi : i < start.length)
    (hplay : nPlayed = countFalse absent)
    (hpres : absent.get? i = some false) :
    ∀ (css : List (List ℕ)) (t : Tally), (∀ cs ∈ css, validChoices cs nPlayed = true) →
    (runPresent start absent nPlayed nPromoted nRelegated i css t).isSome = true := by
  intro css
  induction css with
  | nil => intro t _; rfl
  | cons cs css ih =>
    intro t hall
    unfold runPresent
    have h1 := trialP_isSome start absent nPlayed nPromoted nRelegated i cs
      hlen hpr hrel hi hplay (hall cs (List.mem_cons_self cs css)) hpres
    obtain ⟨bo, hbo⟩ := Option.isSome_iff_exists.mp h1
    rw [hbo]
    show (runPresent start absent nPlayed nPromoted nRelegated i css
      (t.update bo.1 bo.2)).isSome = true
    exact ih (t.update bo.1 bo.2) fun cs2 h2 => hall cs2 (List.mem_cons_of_mem cs h2)

theorem runAbsent_isSome (start : List ℤ) (absent : List Bool)
    (nPlayed nPromoted nRelegated i : ℕ)
    (hlen : absent.length = start.length)
    (hpr : nPromoted + nRelegated < start.length)
    (hrel : 1 ≤ nRelegated)
    (hi : i < start.length) :
    ∀ (css : List (List ℕ)) (c : ℕ × ℕ × ℕ),
    (runAbsent start absent nPlayed nPromoted nRelegated i css c).isSome = true := by
  intro css
  induction css with
  | nil => intro c; rfl
  | cons cs css ih =>
    intro c
    unfold runAbsent
    have h1 := trialOutcome_isSome start absent nPlayed nPromoted nRelegated i cs
      hlen hpr hrel hi
    obtain ⟨o, ho⟩ := Option.isSome_iff_exists.mp h1
    rw [ho]
    show (runAbsent start absent nPlayed nPromoted nRelegated i css
      (bump3 c o)).isSome = true
    exact ih (bump3 c o)

/-- C2 (amended): under the stated invariants strengthened with
`1 ≤ nRelegated`, every trial's generator, score-combiner, classifier and
aggregator computation is total: `sortedFinals[nPromoted]`,
`sortedFinals[nBands - nRelegated]` and the bucket index
`drawn position - 1` are always within bounds, and whole batches succeed.
The boundary case `nRelegated = 0` claimed by the specification fails — see
the counterexample — because the relegation access becomes
`sortedFinals[nBands]`, one past the end. -/
theorem simulation_total (start : List ℤ) (absent : List Bool)
    (nPlayed nPromoted nRelegated i : ℕ) (cs : List ℕ) (css : List (List ℕ))
    (t0 : Tally) (c0 : ℕ × ℕ × ℕ)
    (hone : 1 ≤ start.length)
    (hlen : absent.length = start.length)
    (hpr : nPromoted + nRelegated < start.length)
    (hrel : 1 ≤ nRelegated)
    (hplay : nPlayed = countFalse absent)
    (hi : i < start.length)
    (hv : validChoices cs nPlayed = true)
    (hcss : ∀ cs2 ∈ css, validChoices cs2 nPlayed = true) :
    (trialOutcome start absent nPlayed nPromoted nRelegated i cs).isSome = true
    ∧ (absent.get? i = some false →
        (trialP start absent nPlayed nPromoted nRelegated i cs).isSome = true)
    ∧ (absent.get? i = some false →
        (runPresent start absent nPlayed nPromoted nRelegated i css t0).isSome = true)
    ∧ (runAbsent start absent nPlayed nPromoted nRelegated i css c0).isSome = true := by
  refine ⟨trialOutcome_isSome start absent nPlayed nPromoted nRelegated i cs
    hlen hpr hrel hi, ?_, ?_, ?_⟩
  · intro hpres
    exact trialP_isSome start absent nPlayed nPromoted nRelegated i cs
      hlen hpr hrel hi hplay hv hpres
  · intro hpres
    exact runPresent_isSome start absent nPlayed nPromoted nRelegated i
      hlen hpr hrel hi hplay hpres css t0 hcss
  · exact runAbsent_isSome start absent nPlayed nPromoted nRelegated i
      hlen hpr hrel hi css c0

/-- Witness for the amended C2 at a two-band section with one absent band. -/
theorem simulation_total_witness :
    (1 ≤ [(0 : ℤ), 0].length ∧ 0 + 1 < [(0 : ℤ), 0].length
      ∧ 1 = countFalse [false, true] ∧ validChoices [0] 1 = true)
    ∧ ((trialOutcome [(0 : ℤ), 0] [false, true] 1 0 1 0 [0]).isSome = true
      ∧ ([false, true].get? 0 = some false →
          (trialP [(0 : ℤ), 0] [false, true] 1 0 1 0 [0]).isSome = true)
      ∧ ([false, true].get? 0 = some false →
          (runPresent [(0 : ℤ), 0] [false, true] 1 0 1 0 [[0]]
            (Tally.init 1)).isSome = true)
      ∧ (runAbsent [(0 : ℤ), 0] [false, true] 1 0 1 0 [[0]] (0, 0, 0)).isSome = true) :=
  ⟨⟨by decide, by decide, by decide, by decide⟩,
    simulation_total [(0 : ℤ), 0] [false, true] 1 0 1 0 [0] [[0]] (Tally.init 1) (0, 0, 0)
      (by decide) (by decide) (by decide) (by decide) (by decide) (by decide) (by decide)
      (by decide)⟩

/-- C2 counterexample: with `nRelegated = 0`, which the claim's invariants
allow, the classifier is not total: in a one-band section with zero
promotions and zero relegations the trial's relegation-cutoff access is
`sortedFinals[1]` in a one-element list, and both the classification and the
present-mode trial fail (`IndexError` in Python, `none` here), although
`nBands ≥ 1`, `nPromoted + nRelegated < nBands` and the draw is valid. -/
theorem trial_fails_when_no_relegation :
    (1 ≤ 1 ∧ 0 + 0 < 1 ∧ 1 = countFalse [false] ∧ validChoices [0] 1 = true
      ∧ [false].get? 0 = some false)
    ∧ trialOutcome [(0 : ℤ)] [false] 1 0 0 0 [0] = none
    ∧ trialP [(0 : ℤ)] [false] 1 0 0 0 [0] = none := by
  decide

/-- C3 (evaluation of the code at the claim's failing input): `analyse`
performs no configuration validation at all.  With `nBands = 3`,
`nPromoted = 2`, `nRelegated = 2` — where `nPromoted + nRelegated ≥ nBands`
should raise a ConfigurationError before simulating — it raises nothing,
runs every band's full batch of `nSamplesPerBand × nBands = 3` trials, and
returns a complete result in which every band is counted promoted or
relegated and the stay counters are all zero. -/
theorem analyse_no_configuration_error :
    analyse ["A", "B", "C"] [0, 0, 0] [0, 0, 0] 2 2 1 [] (constChoices2 [0, 0, 0]) =
      some [Sum.inl ⟨[3, 0, 0], [0, 0, 0], [0, 0, 0]⟩,
        Sum.inl ⟨[0, 3, 0], [0, 0, 0], [0, 0, 0]⟩,
        Sum.inl ⟨[0, 0, 0], [0, 0, 0], [0, 0, 3]⟩] := by
  decide

/-- C7 (evaluation of the code at the claim's failing inputs): the loader
does not skip a malformed row in its entirety.  A one-field row appends its
name before the missing-field `IndexError` is caught, so the returned name
and score sequences have different lengths; a two-field row also leaks its
first score; and a non-numeric score raises an uncaught `ValueError`
(`Except.error`) that aborts the whole load even when a well-formed row
follows.  A fully well-formed row is parsed into all three sequences. -/
theorem read_csv_malformed_rows :
    read_csv [[⟨"X", none⟩]] = .ok (["X"], [], [])
    ∧ read_csv [[⟨"Y", none⟩, ⟨"4", some 4⟩]] = .ok (["Y"], [4], [])
    ∧ read_csv [[⟨"A", none⟩, ⟨"foo", none⟩, ⟨"1", some 1⟩],
        [⟨"B", none⟩, ⟨"1", some 1⟩, ⟨"2", some 2⟩]] = .error ()
    ∧ read_csv [[⟨"B", none⟩, ⟨"1", some 1⟩, ⟨"2", some 2⟩]] =
        .ok (["B"], [1], [2]) :=
  ⟨rfl, rfl, rfl, rfl⟩

end Brassband
